import Mathlib

/-!
Shallow embedding of `src/2_epoll_server/epoll_linux.go` from the
repository `spongecaptain/1m-go-tcp-server`: a single-instance epoll
multiplexer wrapping `unix.EpollCreate1` / `unix.EpollCtl` /
`unix.EpollWait`, together with a table `connections : map[int]net.Conn`
from raw file descriptors to connection handles.

The Go functions are translated into pure Lean functions over an explicit
state.  The kernel (the epoll notifier) is an external collaborator: its
registered-descriptor set is modelled as part of the state and the
`epoll_ctl` / `epoll_wait` syscalls are modelled both deterministically
(the documented standard behaviour) and relationally (admitting arbitrary
errno failures), so that error-path claims can be settled in full
generality.
-/

/-- Errno values returned by the modelled syscalls.  `EINTR`, `EEXIST` and
`ENOENT` are the ones the code's control flow can distinguish or that the
kernel model produces; `other` covers every remaining errno. -/
inductive Errno where
  | EINTR
  | EEXIST
  | ENOENT
  | other (code : Int)
deriving DecidableEq, Repr

/-- The observable outcome of a Go call: a normal return value, a returned
non-nil `error`, or a runtime panic (which in Go is not a returned error
but an unwinding of the calling goroutine). -/
inductive Outcome (α : Type) where
  | ok (a : α)
  | err (e : Errno)
  | panicked
deriving DecidableEq, Repr

/-- Whether an outcome is a returned (non-nil) Go `error`. -/
def Outcome.isErr {α : Type} : Outcome α → Bool
  | .err _ => true
  | _ => false

/-- A `net.Conn` value as seen by this file.  `nilConn` is the interface
zero value; `tcp sysfd tag` is a `*net.TCPConn` whose internal
`conn.fd.pfd.Sysfd` field equals `sysfd` (`tag` stands for the rest of the
object's identity, invisible to `socketFD`); `otherConn` is any other
`net.Conn` implementation, which lacks the `conn`/`fd`/`pfd` field chain
that `socketFD` reflects into. -/
inductive NetConn where
  | nilConn
  | tcp (sysfd : Int) (tag : Nat)
  | otherConn (tag : Nat)
deriving DecidableEq, Repr

/-- Translation of `socketFD` (epoll_linux.go lines 98-113).  The Go
function reflectively reads `conn.fd.pfd.Sysfd` and returns an `int`; it
has no error return.  On a `*net.TCPConn` the chain succeeds and yields
`Sysfd`.  On a nil interface value or on a connection type without those
private fields, `reflect.Value.FieldByName`/`Int` panic at runtime;
`none` models that panic. -/
def socketFD : NetConn → Option Int
  | .tcp sysfd _ => some sysfd
  | .nilConn => none
  | .otherConn _ => none

/-- The Go map `connections map[int]net.Conn`, embedded as an association
list whose keys stay distinct because insertion replaces an existing
binding in place. -/
def GoMap : Type := List (Int × NetConn)

instance : DecidableEq GoMap := inferInstanceAs (DecidableEq (List (Int × NetConn)))

instance : Repr GoMap := inferInstanceAs (Repr (List (Int × NetConn)))

/-- Go map indexing `m[fd]`: a missing key yields the zero value of the
value type, which for the interface `net.Conn` is nil. -/
def goMapGet : GoMap → Int → NetConn
  | [], _ => .nilConn
  | (k, v) :: rest, fd => if k = fd then v else goMapGet rest fd

/-- Go map key membership (the `_, ok := m[fd]` form; the code never uses
it, but the table invariant is stated with it). -/
def goMapMem : GoMap → Int → Bool
  | [], _ => false
  | (k, _) :: rest, fd => if k = fd then true else goMapMem rest fd

/-- Go map assignment `m[fd] = conn`: replaces the binding if the key is
present, otherwise adds a new one. -/
def goMapInsert : GoMap → Int → NetConn → GoMap
  | [], fd, conn => [(fd, conn)]
  | (k, v) :: rest, fd, conn =>
      if k = fd then (fd, conn) :: rest else (k, v) :: goMapInsert rest fd conn

/-- Go map deletion `delete(m, fd)`. -/
def goMapErase : GoMap → Int → GoMap
  | [], _ => []
  | (k, v) :: rest, fd => if k = fd then rest else (k, v) :: goMapErase rest fd

/-- `len(m)` for the Go map. -/
def goMapLen (m : GoMap) : Nat := m.length

/-- Combined state of one multiplexer instance: the kernel-side set of
descriptors currently registered with the epoll notifier (external
state), and the Go-side `connections` table. -/
structure Sys where
  registered : List Int
  connections : GoMap
deriving DecidableEq, Repr

/-- The state `MkEpoll` establishes on success (epoll_linux.go lines
25-37): a fresh notifier with nothing registered and an empty
`connections` map. -/
def initSys : Sys := ⟨[], []⟩

/-- Modelled from the spec: the OS notifier's documented reaction to
`EpollCtl(EPOLL_CTL_ADD, fd)` (the kernel is an external collaborator,
not code under src/).  Registering a descriptor already registered fails
(`EEXIST`); on success the descriptor joins the registered set; any
failure leaves the registered set unchanged.  Other spurious failures
(resource exhaustion etc.) are admitted with arbitrary errno. -/
def ctlAddPost (reg : List Int) (fd : Int) (res : Except Errno Unit)
    (reg' : List Int) : Prop :=
  (fd ∉ reg ∧ res = .ok () ∧ reg' = fd :: reg) ∨
  (∃ e, res = .error e ∧ reg' = reg ∧ (fd ∈ reg → e = .EEXIST))

/-- Modelled from the spec: the OS notifier's documented reaction to
`EpollCtl(EPOLL_CTL_DEL, fd)`.  Deregistering a descriptor that is not
registered fails (`ENOENT`); on success the descriptor leaves the
registered set; any failure leaves the registered set unchanged. -/
def ctlDelPost (reg : List Int) (fd : Int) (res : Except Errno Unit)
    (reg' : List Int) : Prop :=
  (fd ∈ reg ∧ res = .ok () ∧ reg' = reg.erase fd) ∨
  (∃ e, res = .error e ∧ reg' = reg ∧ (fd ∉ reg → e = .ENOENT))

/-- The deterministic instance of the kernel ADD model: fail exactly when
the descriptor is already registered. -/
def epollCtlAdd (reg : List Int) (fd : Int) : Except Errno Unit × List Int :=
  if fd ∈ reg then (.error .EEXIST, reg) else (.ok (), fd :: reg)

/-- The deterministic instance of the kernel DEL model: fail exactly when
the descriptor is not registered. -/
def epollCtlDel (reg : List Int) (fd : Int) : Except Errno Unit × List Int :=
  if fd ∈ reg then (.ok (), reg.erase fd) else (.error .ENOENT, reg)

/-- The table-side tail of `epoll.Add` (epoll_linux.go lines 42-54),
parametric in the result the `EpollCtl` syscall returned: on a non-nil
error the error is returned with the table untouched; on success the
binding `fd ↦ conn` is stored under the writer lock.  (The `log.Printf`
every 100 entries observes `len` but does not change the table.) -/
def addTable (conns : GoMap) (conn : NetConn) (fd : Int)
    (res : Except Errno Unit) : Outcome Unit × GoMap :=
  match res with
  | .error e => (.err e, conns)
  | .ok _ => (.ok (), goMapInsert conns fd conn)

/-- The table-side tail of `epoll.Remove` (epoll_linux.go lines 60-72),
parametric in the result the `EpollCtl` syscall returned: on a non-nil
error the error is returned with the table untouched; on success the
binding for `fd` is deleted under the writer lock. -/
def removeTable (conns : GoMap) (fd : Int)
    (res : Except Errno Unit) : Outcome Unit × GoMap :=
  match res with
  | .error e => (.err e, conns)
  | .ok _ => (.ok (), goMapErase conns fd)

/-- `epoll.Add` (epoll_linux.go lines 39-55) against the deterministic
kernel: resolve the descriptor with `socketFD` (a panic there aborts the
call before any syscall or table write), issue `EPOLL_CTL_ADD`, and on
success record `fd ↦ conn`. -/
def sysAdd (s : Sys) (conn : NetConn) : Outcome Unit × Sys :=
  match socketFD conn with
  | none => (.panicked, s)
  | some fd =>
      let p := epollCtlAdd s.registered fd
      let q := addTable s.connections conn fd p.1
      (q.1, ⟨p.2, q.2⟩)

/-- `epoll.Remove` (epoll_linux.go lines 57-73) against the deterministic
kernel: resolve the descriptor, issue `EPOLL_CTL_DEL`, and on success
delete the table binding for `fd`. -/
def sysRemove (s : Sys) (conn : NetConn) : Outcome Unit × Sys :=
  match socketFD conn with
  | none => (.panicked, s)
  | some fd =>
      let p := epollCtlDel s.registered fd
      let q := removeTable s.connections fd p.1
      (q.1, ⟨p.2, q.2⟩)

/-- `epoll.Add` as a relation over the relational kernel model, admitting
every errno the syscall may return. -/
def AddStep (s : Sys) (conn : NetConn) (out : Outcome Unit) (s' : Sys) : Prop :=
  match socketFD conn with
  | none => out = .panicked ∧ s' = s
  | some fd =>
      ∃ res reg', ctlAddPost s.registered fd res reg' ∧
        ∃ q, q = addTable s.connections conn fd res ∧
          out = q.1 ∧ s' = ⟨reg', q.2⟩

/-- `epoll.Remove` as a relation over the relational kernel model. -/
def RemoveStep (s : Sys) (conn : NetConn) (out : Outcome Unit) (s' : Sys) : Prop :=
  match socketFD conn with
  | none => out = .panicked ∧ s' = s
  | some fd =>
      ∃ res reg', ctlDelPost s.registered fd res reg' ∧
        ∃ q, q = removeTable s.connections fd res ∧
          out = q.1 ∧ s' = ⟨reg', q.2⟩

/-- States reachable from a fresh `MkEpoll` result by any sequence of
`Add` and `Remove` calls (succeeding, failing with any admitted errno, or
panicking).  `Wait` does not mutate the state, so it needs no case. -/
inductive Reach : Sys → Prop where
  | init : Reach initSys
  | add {s conn out s'} : Reach s → AddStep s conn out s' → Reach s'
  | remove {s conn out s'} : Reach s → RemoveStep s conn out s' → Reach s'

/-- The length of the `events` slice the code hands to `EpollWait`
(`make([]unix.EpollEvent, 100)`, epoll_linux.go line 76): the kernel
reports at most this many events per call. -/
def eventBufCap : Nat := 100

/-- The third argument the code passes to `unix.EpollWait` (epoll_linux.go
line 78).  In `golang.org/x/sys/unix`, `EpollWait(epfd, events, msec)`
takes the timeout in milliseconds as its third argument, so the code waits
with a 100 ms timeout; `-1` would mean block indefinitely. -/
def waitMsecArg : Int := 100

/-- One return of the `EpollWait` syscall: either a non-nil error, or
success with the list of descriptors of the `n` reported events in kernel
order.  `ready []` is the `n = 0` return that a non-negative `msec`
timeout produces on expiry. -/
inductive KernelWaitResult where
  | err (e : Errno)
  | ready (fds : List Int)
deriving DecidableEq, Repr

/-- Modelled from the spec: which `EpollWait` returns the kernel may
produce, given the timeout argument and the registered set.  At most
`eventBufCap` events are reported, every reported descriptor is
registered, and the empty success (`n = 0`) occurs only when a
non-negative timeout expires, never when `msec = -1`. -/
def kernelWaitAdmissible (msec : Int) (reg : List Int) : KernelWaitResult → Prop
  | .err _ => True
  | .ready fds =>
      fds.length ≤ eventBufCap ∧ (∀ fd ∈ fds, fd ∈ reg) ∧ (fds = [] → 0 ≤ msec)

/-- The translation loop of `epoll.Wait` (epoll_linux.go lines 87-94):
for each of the `n` reported events, in order, append
`e.connections[int(events[i].Fd)]` — the Go map read, yielding nil for a
missing key — under the reader lock. -/
def goTranslate (conns : GoMap) (fds : List Int) : List NetConn :=
  fds.map (goMapGet conns)

/-- `epoll.Wait` (epoll_linux.go lines 75-95) over a trace of successive
`EpollWait` returns: the `retry:` label plus `goto retry` on `EINTR`
consume the trace until the first non-`EINTR` entry; a non-`EINTR` error
is returned as is, and a success is translated through the table.  `none`
means the trace ran out while the loop was still retrying. -/
def waitLoop (conns : GoMap) : List KernelWaitResult →
    Option (Except Errno (List NetConn))
  | [] => none
  | .err e :: rest =>
      if e = .EINTR then waitLoop conns rest else some (.error e)
  | .ready fds :: _ => some (.ok (goTranslate conns fds))

/-- A trace every entry of which the kernel could actually produce for
this code's arguments (buffer of 100, `msec = 100`). -/
def traceAdmissible (reg : List Int) (tr : List KernelWaitResult) : Prop :=
  ∀ r ∈ tr, kernelWaitAdmissible waitMsecArg reg r

/-- The keys of the `connections` table. -/
def goMapKeys (m : GoMap) : List Int := m.map Prod.fst

/-- The table invariant of the spec: the keys of `connections` are exactly
the descriptors registered with the OS notifier. -/
def tableMatchesKernel (s : Sys) : Prop :=
  ∀ fd, goMapMem s.connections fd = true ↔ fd ∈ s.registered

/-- Well-formedness of a multiplexer state: the table's keys are distinct
(true of every Go map), the kernel's registered set is a set, and the
table matches the kernel. -/
def SysWF (s : Sys) : Prop :=
  (goMapKeys s.connections).Nodup ∧ s.registered.Nodup ∧ tableMatchesKernel s

/-- A sequence of `Add` calls executed in some serial order — the order in
which the writer lock admitted them — returning every call's outcome and
the final state. -/
def addAllOutcomes : Sys → List NetConn → List (Outcome Unit) × Sys
  | s, [] => ([], s)
  | s, c :: cs =>
      let p := sysAdd s c
      let q := addAllOutcomes p.2 cs
      (p.1 :: q.1, q.2)

/-! Helper lemmas about the Go map operations. -/

theorem goMapMem_insert (m : GoMap) (k k' : Int) (v : NetConn) :
    goMapMem (goMapInsert m k v) k' = if k = k' then true else goMapMem m k' := by
  induction m with
  | nil => simp [goMapInsert, goMapMem]
  | cons p rest ih =>
    obtain ⟨pk, pv⟩ := p
    by_cases h1 : pk = k
    · subst h1
      by_cases h2 : pk = k' <;> simp [goMapInsert, goMapMem, h2]
    · by_cases h2 : pk = k'
      · subst h2
        simp [goMapInsert, goMapMem, h1, Ne.symm h1]
      · simp [goMapInsert, goMapMem, h1, h2, ih]

theorem goMapGet_insert (m : GoMap) (k k' : Int) (v : NetConn) :
    goMapGet (goMapInsert m k v) k' = if k = k' then v else goMapGet m k' := by
  induction m with
  | nil => simp [goMapInsert, goMapGet]
  | cons p rest ih =>
    obtain ⟨pk, pv⟩ := p
    by_cases h1 : pk = k
    · subst h1
      by_cases h2 : pk = k' <;> simp [goMapInsert, goMapGet, h2]
    · by_cases h2 : pk = k'
      · subst h2
        simp [goMapInsert, goMapGet, h1, Ne.symm h1]
      · simp [goMapInsert, goMapGet, h1, h2, ih]

theorem goMapGet_of_not_mem (m : GoMap) (fd : Int) (h : goMapMem m fd = false) :
    goMapGet m fd = .nilConn := by
  induction m with
  | nil => rfl
  | cons p rest ih =>
    obtain ⟨pk, pv⟩ := p
    by_cases h1 : pk = fd
    · simp [goMapMem, h1] at h
    · simp [goMapMem, h1] at h
      simp [goMapGet, h1, ih h]

theorem goMapLen_insert_of_not_mem (m : GoMap) (k : Int) (v : NetConn)
    (h : goMapMem m k = false) :
    goMapLen (goMapInsert m k v) = goMapLen m + 1 := by
  induction m with
  | nil => rfl
  | cons p rest ih =>
    obtain ⟨pk, pv⟩ := p
    by_cases h1 : pk = k
    · simp [goMapMem, h1] at h
    · simp [goMapMem, h1] at h
      simp [goMapInsert, goMapLen, h1] at ih ⊢
      exact ih h

theorem goMapMem_iff_keys (m : GoMap) (fd : Int) :
    goMapMem m fd = true ↔ fd ∈ goMapKeys m := by
  induction m with
  | nil => simp [goMapMem, goMapKeys]
  | cons p rest ih =>
    obtain ⟨pk, pv⟩ := p
    simp only [goMapKeys] at ih
    by_cases h : pk = fd
    · simp [goMapMem, goMapKeys, h]
    · simp only [goMapMem, if_neg h, goMapKeys, List.map_cons, List.mem_cons, ih]
      constructor
      · exact fun hm => Or.inr hm
      · rintro (hfd | hm)
        · exact absurd hfd.symm h
        · exact hm

theorem goMapKeys_insert (m : GoMap) (k : Int) (v : NetConn) :
    goMapKeys (goMapInsert m k v) =
      if goMapMem m k = true then goMapKeys m else goMapKeys m ++ [k] := by
  induction m with
  | nil => simp [goMapInsert, goMapMem, goMapKeys]
  | cons p rest ih =>
    obtain ⟨pk, pv⟩ := p
    by_cases h1 : pk = k
    · subst h1
      simp [goMapInsert, goMapMem, goMapKeys]
    · simp only [goMapKeys] at ih
      by_cases h2 : goMapMem rest k = true <;>
        simp [goMapInsert, goMapMem, goMapKeys, h1, h2, ih]

theorem goMapKeys_insert_nodup (m : GoMap) (k : Int) (v : NetConn)
    (h : (goMapKeys m).Nodup) : (goMapKeys (goMapInsert m k v)).Nodup := by
  rw [goMapKeys_insert]
  by_cases hm : goMapMem m k = true
  · simpa [hm] using h
  · simp only [hm, if_false]
    refine List.Nodup.append h (List.nodup_singleton k) ?_
    intro a ha hb
    simp only [List.mem_singleton] at hb
    subst hb
    exact hm ((goMapMem_iff_keys m a).2 ha)

theorem goMapKeys_erase_sublist (m : GoMap) (k : Int) :
    (goMapKeys (goMapErase m k)).Sublist (goMapKeys m) := by
  induction m with
  | nil => simp [goMapErase, goMapKeys]
  | cons p rest ih =>
    obtain ⟨pk, pv⟩ := p
    by_cases h1 : pk = k
    · simp only [goMapErase, h1, if_pos rfl, goMapKeys, List.map_cons]
      exact List.sublist_cons_self _ _
    · simp only [goMapErase, if_neg h1, goMapKeys, List.map_cons]
      exact ih.cons₂ _

theorem goMapKeys_erase_nodup (m : GoMap) (k : Int)
    (h : (goMapKeys m).Nodup) : (goMapKeys (goMapErase m k)).Nodup :=
  h.sublist (goMapKeys_erase_sublist m k)

theorem goMapMem_erase (m : GoMap) (k k' : Int) (h : (goMapKeys m).Nodup) :
    goMapMem (goMapErase m k) k' = if k = k' then false else goMapMem m k' := by
  induction m with
  | nil => simp [goMapErase, goMapMem]
  | cons p rest ih =>
    obtain ⟨pk, pv⟩ := p
    simp only [goMapKeys, List.map_cons, List.nodup_cons] at h
    obtain ⟨hpk, hrest⟩ := h
    by_cases h1 : pk = k
    · subst h1
      have herase : goMapErase ((pk, pv) :: rest) pk = rest := by
        simp [goMapErase]
      rw [herase]
      by_cases h2 : pk = k'
      · subst h2
        rw [if_pos rfl]
        cases hmm : goMapMem rest pk with
        | false => rfl
        | true => exact absurd ((goMapMem_iff_keys rest pk).1 hmm) hpk
      · simp [goMapMem, h2]
    · by_cases h2 : pk = k'
      · subst h2
        have hk : k ≠ pk := fun hkk => h1 hkk.symm
        simp [goMapErase, h1, goMapMem, hk, ih hrest]
      · simp [goMapErase, h1, goMapMem, h2, ih hrest]

/-! Preservation of well-formedness by the Add and Remove step relations. -/

theorem addStep_wf {s : Sys} {conn : NetConn} {out : Outcome Unit} {s' : Sys}
    (hwf : SysWF s) (h : AddStep s conn out s') : SysWF s' := by
  unfold AddStep at h
  obtain ⟨hkeys, hreg, hmatch⟩ := hwf
  cases hfd : socketFD conn with
  | none =>
    rw [hfd] at h
    obtain ⟨-, rfl⟩ := h
    exact ⟨hkeys, hreg, hmatch⟩
  | some fd =>
    rw [hfd] at h
    obtain ⟨res, reg', hctl, q, hq, hout, hs'⟩ := h
    rcases hctl with ⟨hnotin, rfl, rfl⟩ | ⟨e, rfl, rfl, -⟩
    · subst hq hs'
      simp only [addTable]
      refine ⟨goMapKeys_insert_nodup _ _ _ hkeys, List.nodup_cons.2 ⟨hnotin, hreg⟩, ?_⟩
      intro fd'
      simp only [goMapMem_insert, List.mem_cons]
      by_cases hcase : fd = fd'
      · simp [hcase]
      · simp only [if_neg hcase, hmatch fd']
        constructor
        · exact fun hm => Or.inr hm
        · rintro (hfd' | hm)
          · exact absurd hfd'.symm hcase
          · exact hm
    · subst hq hs'
      exact ⟨hkeys, hreg, hmatch⟩

theorem removeStep_wf {s : Sys} {conn : NetConn} {out : Outcome Unit} {s' : Sys}
    (hwf : SysWF s) (h : RemoveStep s conn out s') : SysWF s' := by
  unfold RemoveStep at h
  obtain ⟨hkeys, hreg, hmatch⟩ := hwf
  cases hfd : socketFD conn with
  | none =>
    rw [hfd] at h
    obtain ⟨-, rfl⟩ := h
    exact ⟨hkeys, hreg, hmatch⟩
  | some fd =>
    rw [hfd] at h
    obtain ⟨res, reg', hctl, q, hq, hout, hs'⟩ := h
    rcases hctl with ⟨hin, rfl, rfl⟩ | ⟨e, rfl, rfl, -⟩
    · subst hq hs'
      simp only [removeTable]
      refine ⟨goMapKeys_erase_nodup _ _ hkeys, hreg.erase fd, ?_⟩
      intro fd'
      rw [goMapMem_erase _ _ _ hkeys, hreg.mem_erase_iff]
      by_cases hcase : fd = fd'
      · simp [hcase]
      · simp only [if_neg hcase, hmatch fd']
        constructor
        · exact fun hm => ⟨fun heq => hcase heq.symm, hm⟩
        · exact fun hp => hp.2
    · subst hq hs'
      exact ⟨hkeys, hreg, hmatch⟩

theorem reach_wf {s : Sys} (h : Reach s) : SysWF s := by
  induction h with
  | init =>
    refine ⟨List.nodup_nil, List.nodup_nil, ?_⟩
    intro fd
    simp [initSys, goMapMem]
  | add _ hstep ih => exact addStep_wf ih hstep
  | remove _ hstep ih => exact removeStep_wf ih hstep

/-! Claim theorems. -/

/-- C3: if the `EpollCtl` syscall fails, `Add` and `Remove` return exactly
that error, and neither the `connections` table nor the kernel-side
registered set is changed — all-or-nothing mutation (epoll_linux.go lines
42-45 and 60-63 return before touching the table). -/
theorem syscall_failure_all_or_nothing :
    (∀ conns conn fd e, addTable conns conn fd (.error e) = (.err e, conns)) ∧
    (∀ conns fd e, removeTable conns fd (.error e) = (.err e, conns)) ∧
    (∀ s conn e s', AddStep s conn (.err e) s' → s' = s) ∧
    (∀ s conn e s', RemoveStep s conn (.err e) s' → s' = s) := by
  refine ⟨fun _ _ _ _ => rfl, fun _ _ _ => rfl, ?_, ?_⟩
  · intro s conn e s' h
    unfold AddStep at h
    cases hfd : socketFD conn with
    | none => rw [hfd] at h; exact Outcome.noConfusion h.1
    | some fd =>
      rw [hfd] at h
      obtain ⟨res, reg', hctl, q, hq, hout, hs'⟩ := h
      rcases hctl with ⟨-, rfl, rfl⟩ | ⟨e', rfl, rfl, -⟩
      · subst hq; simp [addTable] at hout
      · subst hq; subst hs'; rfl
  · intro s conn e s' h
    unfold RemoveStep at h
    cases hfd : socketFD conn with
    | none => rw [hfd] at h; exact Outcome.noConfusion h.1
    | some fd =>
      rw [hfd] at h
      obtain ⟨res, reg', hctl, q, hq, hout, hs'⟩ := h
      rcases hctl with ⟨-, rfl, rfl⟩ | ⟨e', rfl, rfl, -⟩
      · subst hq; simp [removeTable] at hout
      · subst hq; subst hs'; rfl

theorem syscall_failure_all_or_nothing_witness :
    (⟨[5], [(5, NetConn.tcp 5 0)]⟩ : Sys) = ⟨[5], [(5, NetConn.tcp 5 0)]⟩ :=
  syscall_failure_all_or_nothing.2.2.1 ⟨[5], [(5, NetConn.tcp 5 0)]⟩
    (.tcp 5 1) .EEXIST ⟨[5], [(5, NetConn.tcp 5 0)]⟩
    ⟨.error .EEXIST, [5], Or.inr ⟨.EEXIST, rfl, rfl, fun _ => rfl⟩,
      addTable [(5, NetConn.tcp 5 0)] (.tcp 5 1) 5 (.error .EEXIST), rfl, rfl, rfl⟩

/-- C4 counterexample: on a handle exposing no underlying descriptor (the
nil `net.Conn`), the code does not surface any `DescriptorExtractionError`:
`socketFD` has no error return and its reflective field access panics, so
the whole call's outcome is a panic (`isErr = false`), not a returned
error; the state is not mutated. -/
theorem add_nil_conn_panics_not_error :
    sysAdd initSys NetConn.nilConn = (Outcome.panicked, initSys) ∧
    (sysAdd initSys NetConn.nilConn).1.isErr = false ∧
    sysRemove initSys NetConn.nilConn = (Outcome.panicked, initSys) := by
  decide

/-- C4 (amended): when the handle exposes no underlying descriptor,
descriptor resolution panics at runtime instead of failing with a
returned error (`socketFD` returns a bare `int` and has no error path);
the panic aborts `Add`/`Remove` before any syscall or table write, so no
state is mutated and no error value is ever surfaced. -/
theorem no_descriptor_panics_no_mutation (s : Sys) (conn : NetConn)
    (h : socketFD conn = none) :
    sysAdd s conn = (Outcome.panicked, s) ∧
    (sysAdd s conn).1.isErr = false ∧
    sysRemove s conn = (Outcome.panicked, s) ∧
    (sysRemove s conn).1.isErr = false := by
  unfold sysAdd sysRemove
  rw [h]
  exact ⟨rfl, rfl, rfl, rfl⟩

theorem no_descriptor_panics_no_mutation_witness :
    sysAdd initSys (NetConn.otherConn 0) = (Outcome.panicked, initSys) ∧
    (sysAdd initSys (NetConn.otherConn 0)).1.isErr = false ∧
    sysRemove initSys (NetConn.otherConn 0) = (Outcome.panicked, initSys) ∧
    (sysRemove initSys (NetConn.otherConn 0)).1.isErr = false :=
  no_descriptor_panics_no_mutation initSys (NetConn.otherConn 0) rfl

/-- C5: `Remove` on a handle whose descriptor is not currently registered
(never added, or added then removed) fails — the `EPOLL_CTL_DEL` syscall
returns `ENOENT`, which the code propagates (epoll_linux.go lines 60-63)
— and the state, table included, is unchanged. -/
theorem remove_unregistered_fails (s : Sys) (conn : NetConn) (fd : Int)
    (out : Outcome Unit) (s' : Sys) (hfd : socketFD conn = some fd)
    (hreg : fd ∉ s.registered) (hstep : RemoveStep s conn out s') :
    out = .err .ENOENT ∧ s' = s := by
  unfold RemoveStep at hstep
  rw [hfd] at hstep
  obtain ⟨res, reg', hctl, q, hq, hout, hs'⟩ := hstep
  rcases hctl with ⟨hin, -, -⟩ | ⟨e, rfl, rfl, himp⟩
  · exact absurd hin hreg
  · have he : e = .ENOENT := himp hreg
    subst he hq hout hs'
    exact ⟨rfl, rfl⟩

theorem remove_unregistered_fails_witness :
    Outcome.err Errno.ENOENT = (Outcome.err Errno.ENOENT : Outcome Unit) ∧
    initSys = initSys :=
  remove_unregistered_fails initSys (.tcp 7 0) 7 (.err .ENOENT) initSys rfl
    (by simp [initSys])
    ⟨.error .ENOENT, [], Or.inr ⟨.ENOENT, rfl, rfl, fun _ => rfl⟩,
      removeTable [] 7 (.error .ENOENT), rfl, rfl, rfl⟩

/-- C6: in every state reachable by any sequence of `Add`/`Remove` calls
from a fresh `MkEpoll`, the key set of the `connections` table equals the
set of descriptors registered with the OS notifier, and every Add or
Remove step — successful or failing — preserves this equality. -/
theorem table_kernel_agreement :
    (∀ s, Reach s → tableMatchesKernel s) ∧
    (∀ s conn out s', SysWF s → AddStep s conn out s' → tableMatchesKernel s') ∧
    (∀ s conn out s', SysWF s → RemoveStep s conn out s' → tableMatchesKernel s') :=
  ⟨fun _ h => (reach_wf h).2.2,
   fun _ _ _ _ hwf hstep => (addStep_wf hwf hstep).2.2,
   fun _ _ _ _ hwf hstep => (removeStep_wf hwf hstep).2.2⟩

theorem table_kernel_agreement_witness :
    goMapMem initSys.connections 7 = true ↔ (7 : Int) ∈ initSys.registered :=
  table_kernel_agreement.1 initSys Reach.init 7

/-- C1 counterexample: the code passes `100` — not `-1` (block forever) —
as the `msec` argument of `EpollWait` (epoll_linux.go line 78), so a
timeout IS configured; when it expires the kernel may return `n = 0`
events, an admissible outcome for this argument, and `Wait` then returns
an empty list with a nil error.  This refutes both "no timeout
configured" and "never yields an empty no-events result without an
error". -/
theorem wait_can_return_empty_without_error :
    waitMsecArg = 100 ∧ waitMsecArg ≠ -1 ∧
    kernelWaitAdmissible waitMsecArg [] (.ready []) ∧
    waitLoop [] [.ready []] = some (.ok []) := by
  refine ⟨rfl, by decide, ?_, rfl⟩
  refine ⟨by simp [eventBufCap], by simp, fun _ => by decide⟩

/-- C1 (amended): `Wait` returns only when the wait syscall yields a
non-`EINTR` error (surfaced to the caller) or succeeds — either with one
or more ready descriptors, translated through the table, or with zero
events when the 100 ms timeout the code passes to `EpollWait` expires, in
which case `Wait` returns an empty list and no error. -/
theorem wait_returns_error_or_kernel_batch (conns : GoMap)
    (tr : List KernelWaitResult) (res : Except Errno (List NetConn))
    (h : waitLoop conns tr = some res) :
    (∃ e, res = .error e ∧ e ≠ .EINTR) ∨
    (∃ fds, res = .ok (goTranslate conns fds)) := by
  induction tr with
  | nil => simp [waitLoop] at h
  | cons r rest ih =>
    cases r with
    | err e =>
      by_cases he : e = .EINTR
      · exact ih (by simpa [waitLoop, he] using h)
      · left
        refine ⟨e, ?_, he⟩
        simp [waitLoop, he] at h
        exact h.symm
    | ready fds =>
      right
      refine ⟨fds, ?_⟩
      simp [waitLoop] at h
      exact h.symm

theorem wait_returns_error_or_kernel_batch_witness :
    (∃ e, (Except.ok [NetConn.nilConn] : Except Errno (List NetConn)) = .error e ∧
      e ≠ .EINTR) ∨
    (∃ fds, (Except.ok [NetConn.nilConn] : Except Errno (List NetConn)) =
      .ok (goTranslate [] fds)) :=
  wait_returns_error_or_kernel_batch [] [.ready [3]] (.ok [NetConn.nilConn]) rfl

/-- C2: the `retry:`/`goto retry` loop (epoll_linux.go lines 77-83)
absorbs every `EINTR` from the wait syscall: any error `Wait` returns is
not `EINTR`, one leading `EINTR` is transparently skipped, and so is any
finite number of them. -/
theorem eintr_never_surfaced :
    (∀ conns tr e, waitLoop conns tr = some (.error e) → e ≠ .EINTR) ∧
    (∀ conns tr, waitLoop conns (.err .EINTR :: tr) = waitLoop conns tr) ∧
    (∀ conns k tr,
      waitLoop conns (List.replicate k (.err .EINTR) ++ tr) = waitLoop conns tr) := by
  refine ⟨?_, ?_, ?_⟩
  · intro conns tr e h
    induction tr with
    | nil => simp [waitLoop] at h
    | cons r rest ih =>
      cases r with
      | err e' =>
        by_cases he : e' = .EINTR
        · exact ih (by simpa [waitLoop, he] using h)
        · simp [waitLoop, he] at h
          subst h
          exact he
      | ready fds => simp [waitLoop] at h
  · intro conns tr
    simp [waitLoop]
  · intro conns k tr
    induction k with
    | zero => rfl
    | succ n ih => simpa [List.replicate_succ, waitLoop] using ih

theorem eintr_never_surfaced_witness : Errno.other 1 ≠ Errno.EINTR :=
  eintr_never_surfaced.1 [] [.err .EINTR, .err (.other 1)] (.other 1) rfl

/-- C7: a successful `Wait` returns exactly one entry per kernel-reported
descriptor, in kernel order: entry `i` is the Go-map read
`e.connections[events[i].Fd]` (epoll_linux.go lines 90-93), and a
descriptor with no table entry contributes the map's zero value — the nil
handle — rather than being skipped. -/
theorem wait_translates_in_kernel_order (conns : GoMap) (fds : List Int)
    (rest : List KernelWaitResult) :
    waitLoop conns (.ready fds :: rest) = some (.ok (goTranslate conns fds)) ∧
    (goTranslate conns fds).length = fds.length ∧
    (∀ i : Nat, (goTranslate conns fds)[i]? = fds[i]?.map (goMapGet conns)) ∧
    (∀ fd, goMapMem conns fd = false → goMapGet conns fd = .nilConn) := by
  refine ⟨rfl, by simp [goTranslate], ?_, ?_⟩
  · intro i
    simp [goTranslate, List.getElem?_map]
  · exact goMapGet_of_not_mem conns

theorem wait_translates_in_kernel_order_witness :
    waitLoop [(1, NetConn.tcp 1 0)] [.ready [1, 2]] =
      some (.ok [NetConn.tcp 1 0, NetConn.nilConn]) ∧
    goMapGet [(1, NetConn.tcp 1 0)] 2 = NetConn.nilConn :=
  ⟨(wait_translates_in_kernel_order [(1, NetConn.tcp 1 0)] [1, 2] []).1.trans rfl,
   (wait_translates_in_kernel_order [(1, NetConn.tcp 1 0)] [1, 2] []).2.2.2 2
      (by decide)⟩

/-- C8: one `Wait` call returns at most 100 handles: the `events` slice
has length 100 (epoll_linux.go line 76), the kernel reports at most that
many events per call, and the result has one entry per reported event. -/
theorem wait_returns_at_most_100 (conns : GoMap) (reg : List Int)
    (tr : List KernelWaitResult) (l : List NetConn)
    (hadm : traceAdmissible reg tr) (h : waitLoop conns tr = some (.ok l)) :
    l.length ≤ 100 ∧ eventBufCap = 100 := by
  refine ⟨?_, rfl⟩
  induction tr with
  | nil => simp [waitLoop] at h
  | cons r rest ih =>
    cases r with
    | err e =>
      by_cases he : e = .EINTR
      · exact ih (fun r hr => hadm r (List.mem_cons_of_mem _ hr))
          (by simpa [waitLoop, he] using h)
      · simp [waitLoop, he] at h
    | ready fds =>
      simp only [waitLoop, Option.some_inj, Except.ok.injEq] at h
      subst h
      have hr := hadm (.ready fds) (List.mem_cons_self _ _)
      simp only [kernelWaitAdmissible, eventBufCap] at hr
      simpa [goTranslate] using hr.1

theorem wait_returns_at_most_100_witness :
    ([NetConn.nilConn] : List NetConn).length ≤ 100 ∧ eventBufCap = 100 :=
  wait_returns_at_most_100 [] [3] [.ready [3]] [NetConn.nilConn]
    (by intro r hr
        simp only [List.mem_singleton] at hr
        subst hr
        exact ⟨by simp [eventBufCap], by simp, fun h => by simp at h⟩)
    rfl

/-! Supporting lemmas for the serialized-Add and Remove-by-descriptor
claims. -/

theorem sysAdd_mem_mono (s : Sys) (c : NetConn) (fd : Int)
    (h : goMapMem s.connections fd = true) :
    goMapMem (sysAdd s c).2.connections fd = true := by
  unfold sysAdd
  cases hfd : socketFD c with
  | none => exact h
  | some k =>
    by_cases hin : k ∈ s.registered
    · simpa [epollCtlAdd, hin, addTable] using h
    · simp only [epollCtlAdd, if_neg hin, addTable]
      rw [goMapMem_insert]
      by_cases hk : k = fd <;> simp [hk, h]

theorem addAll_mem_mono (cs : List NetConn) : ∀ (s : Sys) (fd : Int),
    goMapMem s.connections fd = true →
    goMapMem (addAllOutcomes s cs).2.connections fd = true := by
  induction cs with
  | nil => intro s fd h; exact h
  | cons c rest ih =>
    intro s fd h
    have hsplit : (addAllOutcomes s (c :: rest)).2 =
        (addAllOutcomes (sysAdd s c).2 rest).2 := rfl
    rw [hsplit]
    exact ih (sysAdd s c).2 fd (sysAdd_mem_mono s c fd h)

theorem addAll_fresh (fds : List Int) : ∀ (s : Sys), fds.Nodup →
    (∀ fd ∈ fds, fd ∉ s.registered ∧ goMapMem s.connections fd = false) →
    (∀ out ∈ (addAllOutcomes s (fds.map fun fd => NetConn.tcp fd 0)).1,
        out = Outcome.ok ()) ∧
    goMapLen (addAllOutcomes s (fds.map fun fd => NetConn.tcp fd 0)).2.connections
      = goMapLen s.connections + fds.length ∧
    (∀ fd ∈ fds,
        goMapMem
          (addAllOutcomes s (fds.map fun fd => NetConn.tcp fd 0)).2.connections
          fd = true) := by
  induction fds with
  | nil => intro s _ _; simp [addAllOutcomes]
  | cons fd rest ih =>
    intro s hnd hfresh
    obtain ⟨hfd_reg, hfd_mem⟩ := hfresh fd (List.mem_cons_self _ _)
    have hstep : sysAdd s (NetConn.tcp fd 0) =
        (Outcome.ok (),
          ⟨fd :: s.registered, goMapInsert s.connections fd (NetConn.tcp fd 0)⟩) := by
      unfold sysAdd
      simp [socketFD, epollCtlAdd, hfd_reg, addTable]
    have hsplit1 : (addAllOutcomes s ((fd :: rest).map fun k => NetConn.tcp k 0)).1 =
        (sysAdd s (NetConn.tcp fd 0)).1 ::
          (addAllOutcomes (sysAdd s (NetConn.tcp fd 0)).2
            (rest.map fun k => NetConn.tcp k 0)).1 := rfl
    have hsplit2 : (addAllOutcomes s ((fd :: rest).map fun k => NetConn.tcp k 0)).2 =
        (addAllOutcomes (sysAdd s (NetConn.tcp fd 0)).2
          (rest.map fun k => NetConn.tcp k 0)).2 := rfl
    set s1 : Sys :=
      ⟨fd :: s.registered, goMapInsert s.connections fd (NetConn.tcp fd 0)⟩ with hs1
    have hfresh1 : ∀ fd' ∈ rest, fd' ∉ s1.registered ∧
        goMapMem s1.connections fd' = false := by
      intro fd' hfd'
      have hne : fd' ≠ fd := fun heq =>
        (List.nodup_cons.1 hnd).1 (heq ▸ hfd')
      obtain ⟨hr, hm⟩ := hfresh fd' (List.mem_cons_of_mem _ hfd')
      refine ⟨?_, ?_⟩
      · simp only [hs1, List.mem_cons]
        rintro (heq | hmem)
        · exact hne heq
        · exact hr hmem
      · simp only [hs1]
        rw [goMapMem_insert, if_neg (fun h => hne h.symm)]
        exact hm
    have hrest := ih s1 (List.nodup_cons.1 hnd).2 hfresh1
    obtain ⟨hall, hlen, hmem⟩ := hrest
    have hsplit1' : (addAllOutcomes s ((fd :: rest).map fun k => NetConn.tcp k 0)).1 =
        Outcome.ok () :: (addAllOutcomes s1 (rest.map fun k => NetConn.tcp k 0)).1 := by
      rw [hsplit1, hstep]
    have hsplit2' : (addAllOutcomes s ((fd :: rest).map fun k => NetConn.tcp k 0)).2 =
        (addAllOutcomes s1 (rest.map fun k => NetConn.tcp k 0)).2 := by
      rw [hsplit2, hstep]
    refine ⟨?_, ?_, ?_⟩
    · intro out hout
      rw [hsplit1'] at hout
      rcases List.mem_cons.1 hout with heq | hmem'
      · exact heq
      · exact hall out hmem'
    · rw [hsplit2']
      have hlen1 : goMapLen s1.connections = goMapLen s.connections + 1 := by
        simp only [hs1]
        exact goMapLen_insert_of_not_mem s.connections fd (NetConn.tcp fd 0) hfd_mem
      rw [hlen, hlen1]
      simp only [List.length_cons]
      omega
    · intro fd' hfd'
      rw [hsplit2']
      rcases List.mem_cons.1 hfd' with heq | hmem'
      · subst heq
        apply addAll_mem_mono
        simp only [hs1]
        rw [goMapMem_insert]
        simp
      · exact hmem fd' hmem'

/-- C9: registration is serialized by the table's writer lock, so `N`
concurrent `Add` calls with distinct descriptors execute table updates in
some serial order; for every such order (every list of distinct
descriptors), all calls succeed and the final table has exactly `N`
entries — each descriptor present, none duplicated, none missing. -/
theorem n_adds_table_has_n_entries (fds : List Int) (hnd : fds.Nodup) :
    (∀ out ∈ (addAllOutcomes initSys (fds.map fun fd => NetConn.tcp fd 0)).1,
        out = Outcome.ok ()) ∧
    goMapLen
        (addAllOutcomes initSys (fds.map fun fd => NetConn.tcp fd 0)).2.connections
      = fds.length ∧
    (∀ fd ∈ fds,
        goMapMem
          (addAllOutcomes initSys (fds.map fun fd => NetConn.tcp fd 0)).2.connections
          fd = true) := by
  have h := addAll_fresh fds initSys hnd
    (by intro fd _; exact ⟨by simp [initSys], rfl⟩)
  simpa [initSys, goMapLen] using h

theorem n_adds_table_has_n_entries_witness :
    goMapLen
        (addAllOutcomes initSys ([1, 2, 3].map fun fd => NetConn.tcp fd 0)).2.connections
      = 3 :=
  (n_adds_table_has_n_entries [1, 2, 3] (by decide)).2.1

/-- C10: `Remove` identifies the entry to deregister solely by the raw
descriptor `socketFD` resolves from its argument (epoll_linux.go lines
58-68), never by handle identity: after `Add` of a handle with descriptor
`fd` and identity `t1` succeeds, `Remove` of a different handle `t2` that
resolves to the same `fd` succeeds, deregisters `fd`, and deletes the
table entry that mapped to the first handle. -/
theorem remove_keyed_by_descriptor (s : Sys) (fd : Int) (t1 t2 : Nat) (s' : Sys)
    (hkeys : (goMapKeys s.connections).Nodup)
    (hadd : sysAdd s (NetConn.tcp fd t1) = (Outcome.ok (), s')) :
    goMapGet s'.connections fd = NetConn.tcp fd t1 ∧
    (sysRemove s' (NetConn.tcp fd t2)).1 = Outcome.ok () ∧
    goMapMem (sysRemove s' (NetConn.tcp fd t2)).2.connections fd = false ∧
    fd ∉ (sysRemove s' (NetConn.tcp fd t2)).2.registered := by
  unfold sysAdd at hadd
  rw [show socketFD (NetConn.tcp fd t1) = some fd from rfl] at hadd
  by_cases hin : fd ∈ s.registered
  · simp [epollCtlAdd, hin, addTable] at hadd
  · simp only [epollCtlAdd, if_neg hin, addTable] at hadd
    injection hadd with h1 h2
    subst h2
    have hkeys' : (goMapKeys (goMapInsert s.connections fd (NetConn.tcp fd t1))).Nodup :=
      goMapKeys_insert_nodup s.connections fd (NetConn.tcp fd t1) hkeys
    have hget : goMapGet (goMapInsert s.connections fd (NetConn.tcp fd t1)) fd =
        NetConn.tcp fd t1 := by
      rw [goMapGet_insert]; simp
    have hdel : sysRemove
        (⟨fd :: s.registered, goMapInsert s.connections fd (NetConn.tcp fd t1)⟩ : Sys)
        (NetConn.tcp fd t2) =
        (Outcome.ok (),
          ⟨s.registered,
            goMapErase (goMapInsert s.connections fd (NetConn.tcp fd t1)) fd⟩) := by
      unfold sysRemove
      simp [socketFD, epollCtlDel, removeTable, List.erase_cons_head]
    refine ⟨hget, ?_, ?_, ?_⟩
    · rw [hdel]
    · rw [hdel]
      simp only
      rw [goMapMem_erase _ _ _ hkeys']
      simp
    · rw [hdel]
      exact hin

theorem remove_keyed_by_descriptor_witness :
    goMapGet (⟨[3], [(3, NetConn.tcp 3 5)]⟩ : Sys).connections 3 = NetConn.tcp 3 5 ∧
    (sysRemove (⟨[3], [(3, NetConn.tcp 3 5)]⟩ : Sys) (NetConn.tcp 3 9)).1
      = Outcome.ok () ∧
    goMapMem
        (sysRemove (⟨[3], [(3, NetConn.tcp 3 5)]⟩ : Sys) (NetConn.tcp 3 9)).2.connections
        3 = false ∧
    (3 : Int) ∉
      (sysRemove (⟨[3], [(3, NetConn.tcp 3 5)]⟩ : Sys) (NetConn.tcp 3 9)).2.registered :=
  remove_keyed_by_descriptor initSys 3 5 9 ⟨[3], [(3, NetConn.tcp 3 5)]⟩
    (by decide) rfl
